import Mathlib

/-!
Verification of `scan-packages.py` (synflow): a scanner that loads a
manifest (`package.json`), an optional lock file (`package-lock.json`) and a
CSV of advisory (infected) package/version pairs, and reports installed
packages that match an advisory entry exactly.

Python dictionaries are modelled as association lists in insertion order
(CPython 3.7+ semantics: assigning to an existing key keeps its position and
replaces the value; assigning to a fresh key appends). Python sets are
modelled as lists with membership-based insertion. Fallible operations
return `Option`; the fatal `sys.exit(1)` paths of `main` are modelled with
`Except`.
-/

/-- Python `str.isspace` characters relevant to `str.split()` / `str.strip()`. -/
def py_space (c : Char) : Bool :=
  c == ' ' || c == '\t' || c == '\n' || c == '\r' || c == '\x0b' || c == '\x0c'

/-- Python `s.lstrip(cs)`: drop the maximal leading run of characters that
belong to `cs`. -/
def py_lstrip (s : String) (cs : List Char) : String :=
  String.mk (s.data.dropWhile (fun c => cs.contains c))

/-- Python `s.strip()`: drop leading and trailing whitespace. -/
def py_strip (s : String) : String :=
  String.mk (((s.data.dropWhile py_space).reverse.dropWhile py_space).reverse)

/-- Worker for Python `s.split()` (no separator argument): tokens are the
maximal runs of non-whitespace characters; `cur` is the current token being
accumulated, in reverse. -/
def py_split_aux : List Char → List Char → List String
  | [], [] => []
  | [], cur => [String.mk cur.reverse]
  | c :: rest, cur =>
    if py_space c then
      match cur with
      | [] => py_split_aux rest []
      | _ => String.mk cur.reverse :: py_split_aux rest []
    else
      py_split_aux rest (c :: cur)

/-- Python `s.split()` with no argument: whitespace-delimited tokens, with no
empty tokens. -/
def py_split (s : String) : List String :=
  py_split_aux s.data []

/-- The character set of the call `version.lstrip('^~>=<')` in
`load_package_json` (line 77). Note: no space character. -/
def version_prefix_chars : List Char := ['^', '~', '>', '=', '<']

/-- Line 77 of the source: `version.lstrip('^~>=<').split()[0]`.
`none` models the `IndexError` raised by `[0]` when `split()` is empty. -/
def clean_version (version : String) : Option String :=
  (py_split (py_lstrip version version_prefix_chars)).head?

/-! ### Python dict / set model -/

/-- `d[k] = v` on a Python dict: replace the binding of `k` in place if `k`
is present (the entry keeps its position), otherwise append a fresh entry at
the end (CPython insertion-order semantics). -/
def dict_insert : List (String × String) → String → String → List (String × String)
  | [], k, v => [(k, v)]
  | p :: rest, k, v =>
    if p.1 == k then (k, v) :: rest else p :: dict_insert rest k v

/-- `k in d` on a Python dict (key membership test). -/
def contains_key (d : List (String × String)) (k : String) : Bool :=
  d.any (fun p => p.1 == k)

/-- `d[k]` lookup returning `none` when absent. -/
def dict_lookup (d : List (String × String)) (k : String) : Option String :=
  (d.find? (fun p => p.1 == k)).map Prod.snd

/-- Python `d.update(e)`: insert every entry of `e` into `d`, in order. -/
def dict_update (d e : List (String × String)) : List (String × String) :=
  e.foldl (fun acc p => dict_insert acc p.1 p.2) d

/-- Python `s.add(x)` on a set, modelled as membership-guarded append. -/
def set_add (s : List (String × String)) (x : String × String) : List (String × String) :=
  if s.contains x then s else s ++ [x]

/-- Left-biased choice on options, used to phrase precedence results. -/
def opt_or (a b : Option String) : Option String :=
  match a with
  | some v => some v
  | none => b

/-- The normalization rule exactly as claimed: strip the maximal leading run
of characters from the set `^ ~ > = < space`, then take the token up to
(not including) the first remaining whitespace. Written from the claim's
words, to be compared with `clean_version` (which embeds the source). -/
def clean_version_spec_c1 (v : String) : Option String :=
  match (v.data.dropWhile
      (fun c => (version_prefix_chars ++ [' ']).contains c)).takeWhile
      (fun c => !(py_space c)) with
  | [] => none
  | tok => some (String.mk tok)

/-- The version normalizer as amended: strip the maximal leading run of
characters from the set `^ ~ > = <` only (space is not stripped), then skip
any leading whitespace and take the token extending to the next whitespace;
there is no token when nothing remains. -/
def clean_version_amended (v : String) : Option String :=
  match ((v.data.dropWhile (fun c => version_prefix_chars.contains c)).dropWhile
      py_space).takeWhile (fun c => !(py_space c)) with
  | [] => none
  | tok => some (String.mk tok)

/-- The binding of `n` produced by the most recent (rightmost) occurrence of
`n` in a visit list, if any. -/
def last_version (l : List (String × String)) (n : String) : Option String :=
  l.foldl (fun acc p => if p.1 = n then some p.2 else acc) none

/-! ### Manifest: `load_package_json` (lines 55-83) -/

/-- Lines 68-71: `all_deps = {}` followed by `all_deps.update(pkg[dep_type])`
for each of the four category keys in their fixed order. An absent category
is modelled as the empty list (`update` with an empty dict is a no-op, so the
`if dep_type in pkg` guard is extensionally the same). -/
def all_deps (deps dev peer opt : List (String × String)) : List (String × String) :=
  dict_update (dict_update (dict_update (dict_update [] deps) dev) peer) opt

/-- Lines 74-78: build `cleaned_deps` by normalizing every version with
`clean_version`; `none` models the uncaught-in-loop exception when
`split()[0]` fails for some entry (caught at line 81 and fatal). -/
def clean_deps : List (String × String) → Option (List (String × String))
  | [] => some []
  | (n, v) :: rest =>
    match clean_version v with
    | none => none
    | some cv =>
      match clean_deps rest with
      | none => none
      | some out => some ((n, cv) :: out)

/-- The pure content of `load_package_json`: merge the four dependency
categories, then normalize every version. `none` models the
`except`+`sys.exit(1)` path (line 81-83). -/
def load_package_json (deps dev peer opt : List (String × String)) :
    Option (List (String × String)) :=
  clean_deps (all_deps deps dev peer opt)

/-! ### Lock file: `load_package_lock` (lines 86-133) -/

/-- A value of a `"dependencies"` mapping in a v1-format lock document:
either a JSON object with an optional `"version"` string and a nested
`"dependencies"` mapping of the same shape, or a non-dict JSON value (which
`extract_deps` skips via its `isinstance(info, dict)` guards). An absent
`"dependencies"` key is modelled as the empty nested list (recursing into an
empty dict is a no-op). -/
inductive DepInfo where
  | obj : Option String → List (String × DepInfo) → DepInfo
  | nonDict : DepInfo

/-- Lines 121-128: `extract_deps(deps_dict)` mutating `all_packages` (the
accumulator `acc`): for each entry in order, record its `"version"` if it is
a dict that has one, then recurse into its nested `"dependencies"`, then move
on to the remaining entries. -/
def extract_deps : List (String × String) → List (String × DepInfo) → List (String × String)
  | acc, [] => acc
  | acc, (_, DepInfo.nonDict) :: rest => extract_deps acc rest
  | acc, (name, DepInfo.obj ver deps) :: rest =>
    extract_deps
      (extract_deps
        (match ver with
         | some v => dict_insert acc name v
         | none => acc)
        deps)
      rest

/-- The `(name, version)` pairs `extract_deps` records, in visit order:
each dict entry contributes its own version (if any), then its nested
dependencies recursively, then the remaining siblings. -/
def flatten_visits : List (String × DepInfo) → List (String × String)
  | [] => []
  | (_, DepInfo.nonDict) :: rest => flatten_visits rest
  | (name, DepInfo.obj ver deps) :: rest =>
    (match ver with
     | some v => [(name, v)]
     | none => []) ++ flatten_visits deps ++ flatten_visits rest

/-- The character list of the literal `'node_modules/'` at line 107. -/
def node_modules_pat : List Char := "node_modules/".data

/-- Worker for `replace('node_modules/', '')`, structurally recursive on a
step budget: every step consumes at least one character, so a budget of
`s.length` runs the scan to completion (`remove_node_modules` below always
supplies it, and `remove_nm_go_congr` shows any sufficient budget agrees). -/
def remove_nm_go : Nat → List Char → List Char
  | 0, s => s
  | _ + 1, [] => []
  | fuel + 1, c :: rest =>
    if node_modules_pat.isPrefixOf (c :: rest) then
      remove_nm_go fuel ((c :: rest).drop node_modules_pat.length)
    else
      c :: remove_nm_go fuel rest

/-- Python `package_path.replace('node_modules/', '')` at line 107: remove
every non-overlapping occurrence of `node_modules/`, scanning left to
right. -/
def remove_node_modules (s : List Char) : List Char :=
  remove_nm_go s.length s

/-- Python `name.split('/')` at line 111: split on every `/`, keeping empty
components; `cur` is the component being accumulated, in reverse. -/
def split_slash : List Char → List Char → List String
  | [], cur => [String.mk cur.reverse]
  | c :: rest, cur =>
    if c == '/' then
      String.mk cur.reverse :: split_slash rest []
    else
      split_slash rest (c :: cur)

/-- Lines 106-114: compute the canonical package name from a `packages` path
key: remove every `node_modules/` occurrence, then, if the result starts
with `@` (Python `name.startswith('@')`), keep only the first two
`/`-separated components (when there are at least two). -/
def canonical_name (path : String) : String :=
  let name := remove_node_modules path.data
  match name with
  | '@' :: _ =>
    match split_slash name [] with
    | p0 :: p1 :: _ => p0 ++ "/" ++ p1
    | _ => String.mk name
  | _ => String.mk name

/-- Lines 100-117: the v2/v3 `packages` loop. Each entry is a path key with
the optional `"version"` field of its info dict; the root entry (empty path)
is skipped, and an entry without a version records nothing. -/
def lock_packages_v2 (entries : List (String × Option String)) : List (String × String) :=
  entries.foldl
    (fun acc p =>
      if p.1 == "" then acc
      else
        match p.2 with
        | some v => dict_insert acc (canonical_name p.1) v
        | none => acc)
    []

/-- A parsed lock document: optional `"packages"` (v2/v3) and optional
`"dependencies"` (v1) top-level keys; both may be present (lines 100, 119). -/
structure LockDoc where
  packages : Option (List (String × Option String))
  dependencies : Option (List (String × DepInfo))

/-- The three conditions `load_package_lock` distinguishes: the file is
absent (line 88), present but `json.load` raises (line 131), or parsed. -/
inductive LockInput where
  | absent : LockInput
  | malformed : LockInput
  | parsed : LockDoc → LockInput

/-- Lines 86-133: result mapping of `load_package_lock`, paired with whether
the warning at line 132 was printed. Absent file: empty mapping, no warning.
Malformed file: empty mapping with a warning, and the caller continues. -/
def load_package_lock : LockInput → List (String × String) × Bool
  | LockInput.absent => ([], false)
  | LockInput.malformed => ([], true)
  | LockInput.parsed doc =>
    let a :=
      match doc.packages with
      | some entries => lock_packages_v2 entries
      | none => []
    let b :=
      match doc.dependencies with
      | some deps => extract_deps a deps
      | none => a
    (b, false)

/-! ### Advisory CSV: `load_infected_packages` (lines 37-52) -/

/-- Lines 44-48: the data-row loop. A row with at least two columns
contributes `(row[0].strip(), row[1].strip().lstrip('= '))` to the set;
shorter rows are skipped. -/
def infected_rows (rows : List (List String)) : List (String × String) :=
  rows.foldl
    (fun acc row =>
      match row with
      | c0 :: c1 :: _ => set_add acc (py_strip c0, py_lstrip (py_strip c1) ['=', ' '])
      | _ => acc)
    []

/-- Lines 41-52: `next(reader)` skips the header row (raising into the fatal
`except` when the CSV has no rows at all, modelled as `none`), then the data
rows are folded into the set. -/
def load_infected_packages : List (List String) → Option (List (String × String))
  | [] => none
  | _ :: rows => some (infected_rows rows)

/-! ### `scan_packages` (lines 136-144) and `main` (lines 147-234) -/

/-- Lines 140-143: keep, in iteration order of `installed`, exactly the
pairs that are members of the `infected` set. -/
def scan_packages (installed infected : List (String × String)) : List (String × String) :=
  installed.filter (fun p => decide (p ∈ infected))

/-- Lines 184-187: merge the lock mapping into the manifest mapping, adding
only names not already present. The `if lock_packages:` guard (line 182) is
extensionally the empty-fold case. -/
def build_installed (m l : List (String × String)) : List (String × String) :=
  l.foldl (fun acc p => if contains_key acc p.1 then acc else acc ++ [p]) m

/-- The fatal exits of `main`: `load_package_json` failing (line 83) or
`load_infected_packages` failing (line 52). -/
inductive ScanFatal where
  | manifestFailed : ScanFatal
  | csvFailed : ScanFatal
deriving DecidableEq

/-- The dataflow of `main` (lines 147-234) from parsed inputs to the list of
reported infections: load the manifest (fatal on failure), load the lock,
merge, load the advisory CSV (fatal on failure), scan. -/
def main_scan (deps dev peer opt : List (String × String)) (lock : LockInput)
    (csv : List (List String)) : Except ScanFatal (List (String × String)) :=
  match load_package_json deps dev peer opt with
  | none => Except.error ScanFatal.manifestFailed
  | some manifest =>
    let lockPkgs := (load_package_lock lock).1
    let installed := build_installed manifest lockPkgs
    match load_infected_packages csv with
    | none => Except.error ScanFatal.csvFailed
    | some infected => Except.ok (scan_packages installed infected)

/-! ### Lemmas on the dict model -/

lemma dict_lookup_nil (n : String) : dict_lookup [] n = none := rfl

lemma dict_lookup_cons (q : String × String) (rest : List (String × String)) (n : String) :
    dict_lookup (q :: rest) n = if q.1 = n then some q.2 else dict_lookup rest n := by
  by_cases h : q.1 = n
  · have hb : (q.1 == n) = true := by simp [h]
    simp [dict_lookup, List.find?_cons, hb, h]
  · have hb : (q.1 == n) = false := by simp [h]
    simp [dict_lookup, List.find?_cons, hb, h]

/-- Key correctness lemma of the dict model: lookup after `d[k] = v`. -/
lemma dict_lookup_insert (d : List (String × String)) (k v n : String) :
    dict_lookup (dict_insert d k v) n = if n = k then some v else dict_lookup d n := by
  induction d with
  | nil =>
    by_cases hn : n = k
    · simp [dict_insert, dict_lookup_cons, dict_lookup_nil, hn]
    · have hkn : ¬ k = n := fun h => hn h.symm
      simp [dict_insert, dict_lookup_cons, dict_lookup_nil, hn, hkn]
  | cons q rest ih =>
    by_cases hq : q.1 = k
    · have hb : (q.1 == k) = true := by simp [hq]
      simp only [dict_insert, hb, if_true]
      by_cases hn : n = k
      · simp [dict_lookup_cons, hn]
      · have hkn : ¬ k = n := fun h => hn h.symm
        have hq' : ¬ q.1 = n := by rw [hq]; exact hkn
        simp [dict_lookup_cons, hn, hkn, hq']
    · have hb : (q.1 == k) = false := by simp [hq]
      simp only [dict_insert, hb, Bool.false_eq_true, if_false]
      rw [dict_lookup_cons, dict_lookup_cons, ih]
      by_cases hqn : q.1 = n
      · have hn : ¬ n = k := fun h => hq (by rw [hqn, h])
        simp [hqn, hn]
      · simp [hqn]

lemma dict_lookup_eq_none_of_not_mem (d : List (String × String)) (n : String)
    (h : n ∉ d.map Prod.fst) :
    dict_lookup d n = none := by
  induction d with
  | nil => rfl
  | cons q rest ih =>
    simp only [List.map_cons, List.mem_cons, not_or] at h
    rw [dict_lookup_cons, if_neg (fun hh => h.1 hh.symm), ih h.2]

/-- Lookup across `d.update(e)` when `e` has no duplicate keys: an entry of
`e` wins, otherwise the old binding survives. -/
lemma dict_lookup_update (acc e : List (String × String)) (n : String)
    (he : (e.map Prod.fst).Nodup) :
    dict_lookup (dict_update acc e) n = opt_or (dict_lookup e n) (dict_lookup acc n) := by
  induction e generalizing acc with
  | nil => simp [dict_update, opt_or, dict_lookup_nil]
  | cons q rest ih =>
    simp only [List.map_cons, List.nodup_cons] at he
    have hrest := ih (dict_insert acc q.1 q.2) he.2
    simp only [dict_update, List.foldl_cons] at hrest ⊢
    rw [hrest, dict_lookup_insert, dict_lookup_cons]
    by_cases hn : q.1 = n
    · have hnone : dict_lookup rest n = none := by
        rw [← hn]
        exact dict_lookup_eq_none_of_not_mem rest q.1 he.1
      simp [hn, hnone, opt_or]
    · rw [if_neg hn, if_neg (fun h => hn (Eq.symm h))]

/-- Normalizing a whole manifest mapping commutes with lookup: when cleaning
succeeds, the cleaned dict binds `n` to the cleaned raw binding of `n`. -/
lemma clean_deps_lookup (d out : List (String × String)) (n : String)
    (h : clean_deps d = some out) :
    dict_lookup out n = (dict_lookup d n).bind clean_version := by
  induction d generalizing out with
  | nil =>
    simp only [clean_deps, Option.some.injEq] at h
    subst h
    rfl
  | cons q rest ih =>
    obtain ⟨m, v⟩ := q
    simp only [clean_deps] at h
    cases hcv : clean_version v with
    | none => rw [hcv] at h; exact absurd h (by simp)
    | some cv =>
      rw [hcv] at h
      cases hrest : clean_deps rest with
      | none => rw [hrest] at h; exact absurd h (by simp)
      | some o =>
        rw [hrest] at h
        simp only [Option.some.injEq] at h
        subst h
        rw [dict_lookup_cons, dict_lookup_cons]
        by_cases hm : m = n
        · simp [hm, hcv]
        · simp [hm, ih o hrest]

lemma contains_key_append (m e : List (String × String)) (x : String) :
    contains_key (m ++ e) x = (contains_key m x || contains_key e x) := by
  simp [contains_key, List.any_append]

/-- The lock-merge loop of `main` appends exactly the lock entries whose
names are absent from the manifest mapping, in lock order, provided the lock
mapping has no duplicate names. -/
lemma build_installed_eq (m l : List (String × String))
    (hl : (l.map Prod.fst).Nodup) :
    build_installed m l = m ++ l.filter (fun p => !(contains_key m p.1)) := by
  induction l generalizing m with
  | nil => simp [build_installed]
  | cons q rest ih =>
    simp only [List.map_cons, List.nodup_cons] at hl
    simp only [build_installed, List.foldl_cons] at ih ⊢
    by_cases hq : contains_key m q.1 = true
    · rw [if_pos hq, ih m hl.2, List.filter_cons]
      simp [hq]
    · have hq' : contains_key m q.1 = false := by
        cases h : contains_key m q.1
        · rfl
        · exact absurd h hq
      rw [if_neg hq, ih (m ++ [q]) hl.2, List.filter_cons]
      have hfilter : rest.filter (fun p => !(contains_key (m ++ [q]) p.1))
          = rest.filter (fun p => !(contains_key m p.1)) := by
        apply List.filter_congr
        intro p hp
        have hne : (q.1 == p.1) = false := by
          simp only [beq_eq_false_iff_ne, ne_eq]
          intro hqp
          exact hl.1 (List.mem_map.mpr ⟨p, hp, hqp.symm⟩)
        rw [contains_key_append]
        simp [contains_key, hne]
      rw [hfilter]
      simp [hq']

lemma mem_set_add (s : List (String × String)) (x p : String × String) :
    p ∈ set_add s x ↔ p ∈ s ∨ p = x := by
  unfold set_add
  by_cases h : s.contains x = true
  · have hx : x ∈ s := by
      rw [List.contains_iff_exists_mem_beq] at h
      obtain ⟨y, hy, hxy⟩ := h
      rw [beq_iff_eq] at hxy
      rwa [← hxy] at hy
    simp only [h, if_true]
    constructor
    · exact Or.inl
    · rintro (hp | hp)
      · exact hp
      · rw [hp]; exact hx
  · simp only [h]
    simp [List.mem_append]

/-- Head of the whitespace splitter, for any accumulator state: with an
empty accumulator, the first token is what remains after skipping leading
whitespace, cut at the next whitespace (and there is none when nothing
remains); with a pending token, that token extends to the next whitespace. -/
lemma py_split_aux_head (l : List Char) : ∀ cur : List Char,
    (py_split_aux l cur).head? =
      match cur with
      | [] =>
        match (l.dropWhile py_space).takeWhile (fun c => !(py_space c)) with
        | [] => none
        | tok => some (String.mk tok)
      | _ => some (String.mk (cur.reverse ++ l.takeWhile (fun c => !(py_space c)))) := by
  induction l with
  | nil =>
    intro cur
    cases cur with
    | nil => rfl
    | cons d ds => simp [py_split_aux]
  | cons c rest ih =>
    intro cur
    by_cases hc : py_space c = true
    · cases cur with
      | nil =>
        simp only [py_split_aux, hc, if_true]
        rw [ih []]
        simp [List.dropWhile_cons, hc]
      | cons d ds =>
        simp only [py_split_aux, hc, if_true]
        simp [List.takeWhile_cons, hc]
    · have hc0 : py_space c = false := by
        cases h : py_space c
        · rfl
        · exact absurd h hc
      cases cur with
      | nil =>
        simp only [py_split_aux, hc0, Bool.false_eq_true, if_false]
        rw [ih [c]]
        simp [List.dropWhile_cons, List.takeWhile_cons, hc0]
      | cons d ds =>
        simp only [py_split_aux, hc0, Bool.false_eq_true, if_false]
        rw [ih (c :: d :: ds)]
        simp [List.takeWhile_cons, hc0, List.append_assoc]

lemma clean_version_eq_amended (v : String) :
    clean_version v = clean_version_amended v := by
  unfold clean_version clean_version_amended py_split py_lstrip
  rw [py_split_aux_head]

lemma last_version_foldl (l : List (String × String)) (n : String) :
    ∀ acc, l.foldl (fun acc p => if p.1 = n then some p.2 else acc) acc
      = opt_or (last_version l n) acc := by
  induction l with
  | nil => intro acc; rfl
  | cons q rest ih =>
    intro acc
    simp only [List.foldl_cons]
    rw [ih]
    have hlv : last_version (q :: rest) n
        = opt_or (last_version rest n) (if q.1 = n then some q.2 else none) := by
      have hstep : last_version (q :: rest) n
          = List.foldl (fun acc p => if p.1 = n then some p.2 else acc)
              (if q.1 = n then some q.2 else none) rest := rfl
      rw [hstep, ih]
    rw [hlv]
    cases last_version rest n with
    | some v => rfl
    | none =>
      by_cases hq : q.1 = n
      · rw [if_pos hq, if_pos hq]
        rfl
      · rw [if_neg hq, if_neg hq]
        rfl

lemma last_version_append (a b : List (String × String)) (n : String) :
    last_version (a ++ b) n = opt_or (last_version b n) (last_version a n) := by
  unfold last_version
  rw [List.foldl_append]
  exact last_version_foldl b n _

lemma extract_deps_cons_obj (acc : List (String × String)) (name : String)
    (ver : Option String) (deps rest : List (String × DepInfo)) :
    extract_deps acc ((name, DepInfo.obj ver deps) :: rest)
      = extract_deps
          (extract_deps
            (match ver with
             | some v => dict_insert acc name v
             | none => acc)
            deps)
          rest := by
  rw [extract_deps.eq_def]

lemma flatten_visits_cons_obj (name : String) (ver : Option String)
    (deps rest : List (String × DepInfo)) :
    flatten_visits ((name, DepInfo.obj ver deps) :: rest)
      = (match ver with
         | some v => [(name, v)]
         | none => []) ++ flatten_visits deps ++ flatten_visits rest := by
  rw [flatten_visits.eq_def]

/-- Full characterization of the recursive lock walk: the final binding of a
name is the one from its most recently visited occurrence, and a name never
visited keeps its binding from the accumulator. -/
lemma extract_deps_lookup (acc : List (String × String))
    (deps : List (String × DepInfo)) (n : String) :
    dict_lookup (extract_deps acc deps) n
      = opt_or (last_version (flatten_visits deps) n) (dict_lookup acc n) := by
  induction acc, deps using extract_deps.induct with
  | case1 acc => simp [extract_deps, flatten_visits, last_version, opt_or]
  | case2 acc name rest ih =>
    simp only [extract_deps, flatten_visits]
    exact ih
  | case3 acc name ver deps rest ih1 ih2 =>
    rw [extract_deps_cons_obj, flatten_visits_cons_obj, ih2, ih1]
    rw [last_version_append, last_version_append]
    cases hr : last_version (flatten_visits rest) n with
    | some v => simp [opt_or]
    | none =>
      simp only [opt_or]
      cases hd : last_version (flatten_visits deps) n with
      | some v => simp [opt_or]
      | none =>
        simp only [opt_or]
        cases ver with
        | none => simp [last_version, opt_or]
        | some v =>
          rw [dict_lookup_insert]
          by_cases hn : n = name
          · subst hn
            simp [last_version, opt_or]
          · have hn' : ¬ name = n := fun h => hn h.symm
            simp [last_version, opt_or, hn, hn']

/-- Any two sufficient step budgets make `remove_nm_go` agree: the scan
consumes at least one character per step, so any budget of at least the
string length yields the full replacement. -/
lemma remove_nm_go_congr (f1 : Nat) : ∀ (f2 : Nat) (s : List Char),
    s.length ≤ f1 → s.length ≤ f2 → remove_nm_go f1 s = remove_nm_go f2 s := by
  induction f1 with
  | zero =>
    intro f2 s h1 _
    have hs : s = [] := List.length_eq_zero.mp (Nat.le_zero.mp h1)
    subst hs
    cases f2 <;> rfl
  | succ f1 ih =>
    intro f2 s h1 h2
    cases s with
    | nil => cases f2 <;> rfl
    | cons c rest =>
      cases f2 with
      | zero => exact absurd h2 (by simp)
      | succ f2 =>
        simp only [remove_nm_go]
        have hp1 : 1 ≤ node_modules_pat.length := by decide
        by_cases hp : node_modules_pat.isPrefixOf (c :: rest) = true
        · rw [if_pos hp, if_pos hp]
          apply ih
          · simp only [List.length_drop, List.length_cons] at h1 ⊢
            omega
          · simp only [List.length_drop, List.length_cons] at h2 ⊢
            omega
        · rw [if_neg hp, if_neg hp]
          have h1' : rest.length ≤ f1 := by
            simp only [List.length_cons] at h1
            omega
          have h2' : rest.length ≤ f2 := by
            simp only [List.length_cons] at h2
            omega
          rw [ih f2 rest h1' h2']

lemma remove_nm_go_succ (fuel : Nat) (c : Char) (rest : List Char) :
    remove_nm_go (fuel + 1) (c :: rest)
      = if node_modules_pat.isPrefixOf (c :: rest) then
          remove_nm_go fuel ((c :: rest).drop node_modules_pat.length)
        else c :: remove_nm_go fuel rest := rfl

/-- Removing the occurrences of `node_modules/` from `node_modules/ ++ s`
removes the leading occurrence and continues on `s`. -/
lemma remove_node_modules_leading (s : List Char) :
    remove_node_modules (node_modules_pat ++ s) = remove_node_modules s := by
  have hlen : node_modules_pat.length = 13 := by decide
  have hcons : node_modules_pat ++ s = 'n' :: ("ode_modules/".data ++ s) := rfl
  have hpre : node_modules_pat.isPrefixOf (node_modules_pat ++ s) = true := by
    rw [List.isPrefixOf_iff_prefix]
    exact List.prefix_append _ _
  have hdrop : (node_modules_pat ++ s).drop node_modules_pat.length = s :=
    List.drop_left _ _
  have hlen2 : (node_modules_pat ++ s).length = (s.length + 12) + 1 := by
    rw [List.length_append, hlen]
    omega
  unfold remove_node_modules
  rw [hlen2, hcons, remove_nm_go_succ, ← hcons, if_pos hpre, hdrop]
  exact remove_nm_go_congr (s.length + 12) s.length s (by omega) (Nat.le_refl _)

/-- Membership in the advisory-row fold: starting from `acc`, the result
holds exactly the old elements and the normalized pairs of the rows with at
least two columns. -/
lemma mem_infected_rows_aux (rows : List (List String))
    (acc : List (String × String)) (p : String × String) :
    p ∈ rows.foldl
        (fun acc row =>
          match row with
          | c0 :: c1 :: _ => set_add acc (py_strip c0, py_lstrip (py_strip c1) ['=', ' '])
          | _ => acc)
        acc
      ↔ p ∈ acc ∨ ∃ c0 c1 rest, (c0 :: c1 :: rest) ∈ rows
          ∧ p = (py_strip c0, py_lstrip (py_strip c1) ['=', ' ']) := by
  induction rows generalizing acc with
  | nil => simp
  | cons row rows ih =>
    rw [List.foldl_cons]
    cases row with
    | nil =>
      rw [ih]
      constructor
      · rintro (hp | ⟨c0, c1, rest, hmem, hp⟩)
        · exact Or.inl hp
        · exact Or.inr ⟨c0, c1, rest, List.mem_cons_of_mem _ hmem, hp⟩
      · rintro (hp | ⟨c0, c1, rest, hmem, hp⟩)
        · exact Or.inl hp
        · rcases List.mem_cons.mp hmem with heq | hmem'
          · exact absurd heq (by simp)
          · exact Or.inr ⟨c0, c1, rest, hmem', hp⟩
    | cons c0 row' =>
      cases row' with
      | nil =>
        rw [ih]
        constructor
        · rintro (hp | ⟨d0, d1, rest, hmem, hp⟩)
          · exact Or.inl hp
          · exact Or.inr ⟨d0, d1, rest, List.mem_cons_of_mem _ hmem, hp⟩
        · rintro (hp | ⟨d0, d1, rest, hmem, hp⟩)
          · exact Or.inl hp
          · rcases List.mem_cons.mp hmem with heq | hmem'
            · exact absurd heq (by simp)
            · exact Or.inr ⟨d0, d1, rest, hmem', hp⟩
      | cons c1 rest0 =>
        rw [ih, mem_set_add]
        constructor
        · rintro ((hp | hp) | ⟨d0, d1, rest, hmem, hp⟩)
          · exact Or.inl hp
          · exact Or.inr ⟨c0, c1, rest0, List.mem_cons_self _ _, hp⟩
          · exact Or.inr ⟨d0, d1, rest, List.mem_cons_of_mem _ hmem, hp⟩
        · rintro (hp | ⟨d0, d1, rest, hmem, hp⟩)
          · exact Or.inl (Or.inl hp)
          · rcases List.mem_cons.mp hmem with heq | hmem'
            · refine Or.inl (Or.inr ?_)
              rw [hp]
              obtain ⟨h0, h1, _⟩ : d0 = c0 ∧ d1 = c1 ∧ rest = rest0 := by
                simpa using heq
              rw [h0, h1]
            · exact Or.inr ⟨d0, d1, rest, hmem', hp⟩

/-! ### Claim theorems -/

lemma opt_or_none (a : Option String) : opt_or a none = a := by
  cases a <;> rfl

/-- C1 counterexample: the source's normalizer does not strip leading
spaces, so on the spec's own example `"   = 2.0.0"` the code yields `"="`
while the claimed rule (which strips spaces in the leading run) yields
`"2.0.0"`. -/
theorem claim_c1_counterexample :
    clean_version "   = 2.0.0" = some "="
    ∧ clean_version_spec_c1 "   = 2.0.0" = some "2.0.0"
    ∧ clean_version "   = 2.0.0" ≠ clean_version_spec_c1 "   = 2.0.0" := by
  refine ⟨by decide, by decide, ?_⟩
  decide

/-- C1 (amended): the normalizer strips the maximal leading run of
characters from `^ ~ > = <` only (space is not stripped), then skips any
leading whitespace and takes the token up to the next whitespace;
`"^1.2.3"` yields `"1.2.3"`, but `"   = 2.0.0"` yields `"="`. -/
theorem claim_c1_amended :
    (∀ v, clean_version v = clean_version_amended v)
    ∧ clean_version "^1.2.3" = some "1.2.3"
    ∧ clean_version "   = 2.0.0" = some "=" :=
  ⟨clean_version_eq_amended, by decide, by decide⟩

/-- C2: the matcher keeps exactly the installed pairs that are members of
the advisory set under exact equality of name and version, in the iteration
order of the installed mapping — which is the manifest entries followed by
the lock-only additions, each in encounter order. -/
theorem claim_c2 (m l f : List (String × String))
    (hl : (l.map Prod.fst).Nodup) :
    (∀ p, p ∈ scan_packages (build_installed m l) f
        ↔ p ∈ build_installed m l ∧ p ∈ f)
    ∧ List.Sublist (scan_packages (build_installed m l) f) (build_installed m l)
    ∧ scan_packages (build_installed m l) f
      = scan_packages m f
        ++ scan_packages (l.filter (fun p => !(contains_key m p.1))) f := by
  refine ⟨?_, ?_, ?_⟩
  · intro p
    simp [scan_packages, List.mem_filter]
  · exact List.filter_sublist _
  · rw [build_installed_eq m l hl]
    unfold scan_packages
    exact List.filter_append _ _

/-- C2 witness at the claim's example: `("left-pad", "1.3.0")` matches the
advisory entry `("left-pad", "1.3.0")` but `("lodash", "4.17.21")` does
not. -/
theorem claim_c2_witness :
    (([("lodash", "4.17.21")].map Prod.fst).Nodup)
    ∧ scan_packages
        (build_installed [("left-pad", "1.3.0")] [("lodash", "4.17.21")])
        [("left-pad", "1.3.0")]
      = scan_packages [("left-pad", "1.3.0")] [("left-pad", "1.3.0")]
        ++ scan_packages
            ([("lodash", "4.17.21")].filter
              (fun p => !(contains_key [("left-pad", "1.3.0")] p.1)))
            [("left-pad", "1.3.0")] :=
  ⟨by decide, (claim_c2 [("left-pad", "1.3.0")] [("lodash", "4.17.21")]
      [("left-pad", "1.3.0")] (by decide)).2.2⟩

/-- C3 counterexample: on the claim's document, the nested entry
`node_modules/@scope/pkg/node_modules/sub` is canonicalized to
`"@scope/pkg"` as well (every `node_modules/` occurrence is removed before
the two-segment cut), so it IS conflated with the scoped package and its
version overwrites the scoped package's own `"1.0.0"`. -/
theorem claim_c3_counterexample :
    canonical_name "node_modules/@scope/pkg/node_modules/sub" = "@scope/pkg"
    ∧ dict_lookup
        (lock_packages_v2
          [("node_modules/@scope/pkg", some "1.0.0"),
           ("node_modules/@scope/pkg/node_modules/sub", some "2.0.0")])
        "@scope/pkg"
      = some "2.0.0"
    ∧ (some "2.0.0" : Option String) ≠ some "1.0.0" := by
  refine ⟨by decide, by decide, ?_⟩
  decide

/-- C3 (amended): a scoped path is canonicalized to its first two segments
after removing every `node_modules/` occurrence, so the nested `sub` entry
collapses to the same canonical name `"@scope/pkg"` and, being encountered
last, its version wins: the document yields exactly
`"@scope/pkg" ↦ "2.0.0"`. -/
theorem claim_c3_amended :
    canonical_name "node_modules/@scope/pkg" = "@scope/pkg"
    ∧ canonical_name "node_modules/@scope/pkg/node_modules/sub" = "@scope/pkg"
    ∧ lock_packages_v2
        [("node_modules/@scope/pkg", some "1.0.0"),
         ("node_modules/@scope/pkg/node_modules/sub", some "2.0.0")]
      = [("@scope/pkg", "2.0.0")] := by
  refine ⟨by decide, by decide, by decide⟩

/-- C4: merging the lock mapping into the manifest mapping appends exactly
the lock entries whose names are not already bound by the manifest, in lock
order; manifest versions win on common names. -/
theorem claim_c4 (m l : List (String × String))
    (hl : (l.map Prod.fst).Nodup) :
    build_installed m l = m ++ l.filter (fun p => !(contains_key m p.1)) :=
  build_installed_eq m l hl

/-- C4 witness at the claim's example: manifest `{a: 1.0.0}` with lock
`{a: 2.0.0, b: 3.0.0}` yields `{a: 1.0.0, b: 3.0.0}`. -/
theorem claim_c4_witness :
    (([("a", "2.0.0"), ("b", "3.0.0")].map Prod.fst).Nodup)
    ∧ build_installed [("a", "1.0.0")] [("a", "2.0.0"), ("b", "3.0.0")]
      = [("a", "1.0.0"), ("b", "3.0.0")] := by
  refine ⟨by decide, ?_⟩
  rw [claim_c4 [("a", "1.0.0")] [("a", "2.0.0"), ("b", "3.0.0")] (by decide)]
  decide

/-- C5: the manifest parser merges the four categories in the fixed order
dependencies, devDependencies, peerDependencies, optionalDependencies with
later categories overwriting earlier ones, and normalizes every stored
version: the resulting binding of any name is the normalization of its
binding in the latest category that has it. -/
theorem claim_c5 (deps dev peer opt out : List (String × String)) (n : String)
    (h1 : (deps.map Prod.fst).Nodup) (h2 : (dev.map Prod.fst).Nodup)
    (h3 : (peer.map Prod.fst).Nodup) (h4 : (opt.map Prod.fst).Nodup)
    (hout : load_package_json deps dev peer opt = some out) :
    dict_lookup out n
      = (opt_or (dict_lookup opt n)
          (opt_or (dict_lookup peer n)
            (opt_or (dict_lookup dev n) (dict_lookup deps n)))).bind
          clean_version := by
  have hd : dict_lookup (all_deps deps dev peer opt) n
      = opt_or (dict_lookup opt n)
          (opt_or (dict_lookup peer n)
            (opt_or (dict_lookup dev n) (dict_lookup deps n))) := by
    unfold all_deps
    rw [dict_lookup_update _ opt n h4, dict_lookup_update _ peer n h3,
        dict_lookup_update _ dev n h2, dict_lookup_update _ deps n h1,
        dict_lookup_nil, opt_or_none]
  rw [clean_deps_lookup (all_deps deps dev peer opt) out n hout, hd]

/-- C5 witness at the claim's example: `dependencies {a: 1.0.0}` with
`devDependencies {a: 2.0.0}` yields `a ↦ 2.0.0`. -/
theorem claim_c5_witness :
    load_package_json [("a", "1.0.0")] [("a", "2.0.0")] [] []
      = some [("a", "2.0.0")]
    ∧ dict_lookup [("a", "2.0.0")] "a"
      = (opt_or (dict_lookup [] "a")
          (opt_or (dict_lookup [] "a")
            (opt_or (dict_lookup [("a", "2.0.0")] "a")
              (dict_lookup [("a", "1.0.0")] "a")))).bind clean_version :=
  ⟨by decide,
    claim_c5 [("a", "1.0.0")] [("a", "2.0.0")] [] [] [("a", "2.0.0")] "a"
      (by decide) (by decide) (by decide) (by decide) (by decide)⟩

/-- C6: the v1-format walk recurses to arbitrary depth — the final binding
of any name is the one from its most recently visited occurrence in the
whole nested tree, and a concrete dependency three levels deep is emitted
into the flat result. -/
theorem claim_c6 :
    (∀ acc deps n, dict_lookup (extract_deps acc deps) n
        = opt_or (last_version (flatten_visits deps) n) (dict_lookup acc n))
    ∧ extract_deps []
        [("a", DepInfo.obj (some "1")
          [("b", DepInfo.obj (some "2")
            [("c", DepInfo.obj (some "3") [])])])]
      = [("a", "1"), ("b", "2"), ("c", "3")] := by
  refine ⟨extract_deps_lookup, ?_⟩
  simp only [extract_deps]
  decide

/-- C7: the advisory loader skips the header row; a data row contributes
`(trimmed name, version trimmed then stripped of leading '=' and spaces)`
exactly when it has at least two columns, extra columns being ignored, and
the claim's 3-column row is accepted as `("evil-pkg", "1.0.0")`. -/
theorem claim_c7 :
    (∀ rows p, p ∈ infected_rows rows
        ↔ ∃ c0 c1 rest, (c0 :: c1 :: rest) ∈ rows
            ∧ p = (py_strip c0, py_lstrip (py_strip c1) ['=', ' ']))
    ∧ (∀ header rows,
        load_infected_packages (header :: rows) = some (infected_rows rows))
    ∧ load_infected_packages
        [["package", "version"], ["evil-pkg", "1.0.0", "malware"], ["x"]]
      = some [("evil-pkg", "1.0.0")] := by
  refine ⟨?_, fun _ _ => rfl, by decide⟩
  intro rows p
  have h := mem_infected_rows_aux rows [] p
  simp only [List.not_mem_nil, false_or] at h
  exact h

/-- C8: an absent lock file yields an empty mapping and no warning; a
malformed lock file yields an empty mapping with a warning, merging that
empty mapping leaves the manifest set unchanged, and the whole scan behaves
exactly as if the lock file were absent. -/
theorem claim_c8 :
    load_package_lock LockInput.absent = ([], false)
    ∧ load_package_lock LockInput.malformed = ([], true)
    ∧ (∀ m : List (String × String),
        build_installed m (load_package_lock LockInput.malformed).1 = m)
    ∧ (∀ deps dev peer opt csv,
        main_scan deps dev peer opt LockInput.malformed csv
          = main_scan deps dev peer opt LockInput.absent csv) := by
  refine ⟨rfl, rfl, fun m => rfl, fun deps dev peer opt csv => rfl⟩

/-- C9: a structurally valid manifest whose version string is empty (or
reduces to nothing after stripping, like `"^~"`) makes the token extraction
fail, and the run aborts fatally at the manifest stage. -/
theorem claim_c9 :
    clean_version "" = none
    ∧ clean_version "^~" = none
    ∧ load_package_json [("some-dep", "")] [] [] [] = none
    ∧ main_scan [("some-dep", "")] [] [] [] LockInput.absent
        [["package", "version"]]
      = Except.error ScanFatal.manifestFailed := by
  refine ⟨by decide, by decide, by decide, by rfl⟩

/-- C10: the path rewrite removes every `node_modules/` occurrence (a
leading occurrence is stripped and the scan continues on the remainder), so
the nested unscoped entry `node_modules/a/node_modules/b` is recorded under
`"a/b"`, not under `"b"`. -/
theorem claim_c10 :
    (∀ s, remove_node_modules (node_modules_pat ++ s) = remove_node_modules s)
    ∧ remove_node_modules "node_modules/a/node_modules/b".data = "a/b".data
    ∧ canonical_name "node_modules/a/node_modules/b" = "a/b"
    ∧ lock_packages_v2 [("node_modules/a/node_modules/b", some "1.0.0")]
      = [("a/b", "1.0.0")] :=
  ⟨remove_node_modules_leading, by decide, by decide, by decide⟩
